import Mathlib

/-!
# A columnar streaming table/view engine, verified

This development embeds the reactive columnar table/view engine described by
the design document of the `streaming-perspective-jupytercon-2020` repository.
The repository's notebook (`jupytercon.ipynb`) drives the engine as a black
box; the engine itself (tables, views, deltas, update propagation and the
snapshot codec) lives outside the repository, so its operations are modelled
here from the design document, while the notebook's own wiring (schemas,
the update-propagation callbacks) is embedded from the notebook source.
-/

set_option maxHeartbeats 1000000

instance {ε α : Type} [DecidableEq ε] [DecidableEq α] : DecidableEq (Except ε α) :=
  fun a b =>
    match a, b with
    | .ok x, .ok y =>
      if h : x = y then .isTrue (by rw [h])
      else .isFalse (fun hh => h (Except.ok.inj hh))
    | .error x, .error y =>
      if h : x = y then .isTrue (by rw [h])
      else .isFalse (fun hh => h (Except.error.inj hh))
    | .ok _, .error _ => .isFalse (fun hh => Except.noConfusion hh)
    | .error _, .ok _ => .isFalse (fun hh => Except.noConfusion hh)

namespace Engine

/-- Modelled from the spec: the tagged-union value type
`{Integer, Float, String, Boolean, Timestamp, Date, Null}` used uniformly
across Table/View/Delta/Snapshot (design notes §9).  Floats are modelled as
exact rationals; timestamps and dates as integer ticks. -/
inductive Value where
  | vInt (i : Int)
  | vFloat (q : Rat)
  | vStr (s : String)
  | vBool (b : Bool)
  | vTime (t : Int)
  | vDate (d : Int)
  | vNull
deriving DecidableEq

/-- Modelled from the spec: the primitive column types
`{integer, float, string, boolean, timestamp/datetime, date}` (§3 Schema). -/
inductive ColType where
  | tInt
  | tFloat
  | tStr
  | tBool
  | tTime
  | tDate
deriving DecidableEq

/-- A value is acceptable in a column of the given declared type.
Null is acceptable in any column (unspecified columns default to null, §4.1). -/
def typeMatches : Value → ColType → Bool
  | .vNull, _ => true
  | .vInt _, .tInt => true
  | .vFloat _, .tFloat => true
  | .vStr _, .tStr => true
  | .vBool _, .tBool => true
  | .vTime _, .tTime => true
  | .vDate _, .tDate => true
  | _, _ => false

/-- Modelled from the spec: a Schema is an ordered list of
(column name, type) pairs (§3). -/
abbrev Schema := List (String × ColType)

/-- A partial-or-full row record: a mapping from column name to value (§4.1). -/
abbrev Record := List (String × Value)

/-- A full row, aligned positionally with a schema's column order. -/
abbrev Row := List Value

/-- Modelled from the spec: the error taxonomy of §7. -/
inductive EngineError where
  | SchemaError
  | TypeMismatchError
  | UnknownColumnError
  | InvalidViewSpecError
  | ComputedColumnInputError
  | CorruptSnapshotError
deriving DecidableEq

/-- Modelled from the spec: a Table owns a Schema, columnar storage
(represented row-aligned: every stored row has one value per schema column),
and an optional primary-key column name (§3). -/
structure Table where
  schema : Schema
  indexCol : Option String
  rows : List Row
deriving DecidableEq

/-- Look up a field of a record by column name (first binding wins). -/
def lookupField (r : Record) (name : String) : Option Value :=
  (r.find? (fun p => p.1 = name)).map (fun p => p.2)

/-- Position of a named column within a schema (first occurrence). -/
def colIndex (schema : Schema) (name : String) : Option Nat :=
  match schema with
  | [] => none
  | c :: rest =>
    if c.1 = name then some 0 else (colIndex rest name).map (· + 1)

/-- Modelled from the spec: `create(schema, index_column?)` fails with
`SchemaError` if the index column is not present in the schema (§4.1). -/
def Table.create (schema : Schema) (indexCol : Option String) :
    Except EngineError Table :=
  match indexCol with
  | none => .ok ⟨schema, none, []⟩
  | some k =>
    if schema.any (fun c => c.1 = k) then .ok ⟨schema, some k, []⟩
    else .error .SchemaError

/-- True when some record references a column name absent from the schema. -/
def hasUnknown (schema : Schema) (recs : List Record) : Bool :=
  recs.any (fun r => r.any (fun p => (schema.find? (fun c => c.1 = p.1)).isNone))

/-- True when every referenced column's value matches its declared type. -/
def typesOk (schema : Schema) (recs : List Record) : Bool :=
  recs.all (fun r => r.all (fun p =>
    match schema.find? (fun c => c.1 = p.1) with
    | some c => typeMatches p.2 c.2
    | none => true))

/-- Modelled from the spec: `update` fails with `UnknownColumnError` if a row
references a column absent from the schema and with `TypeMismatchError` if a
value's type disagrees with its column's declared type (§4.1).  Unknown
columns are detected over the whole payload before type checking. -/
def checkRecords (schema : Schema) (recs : List Record) :
    Except EngineError Unit :=
  if hasUnknown schema recs then .error .UnknownColumnError
  else if typesOk schema recs then .ok ()
  else .error .TypeMismatchError

/-- Normalize a partial record into a full row in schema column order;
unspecified columns default to null (§4.1). -/
def normalizeRecord (schema : Schema) (r : Record) : Row :=
  schema.map (fun c => (lookupField r c.1).getD .vNull)

/-- The key value of a full row, given the key column's position. -/
def getKey (ki : Nat) (row : Row) : Value :=
  row.getD ki .vNull

/-- Index of the first stored row whose key equals `k`. -/
def findRowIdx (ki : Nat) (rows : List Row) (k : Value) : Option Nat :=
  match rows with
  | [] => none
  | r :: rest =>
    if getKey ki r = k then some 0 else (findRowIdx ki rest k).map (· + 1)

/-- Modelled from the spec: one entry of a Delta — whether the row was
inserted (vs updated in place) and its full post-update values (§3, §4.1). -/
structure DeltaRow where
  inserted : Bool
  row : Row
deriving DecidableEq

/-- Modelled from the spec: the immutable Delta produced by one `update`
call — the affected rows with their full post-update values, tagged
inserted/updated, together with the source schema (§3). -/
structure Delta where
  schema : Schema
  rows : List DeltaRow
deriving DecidableEq

/-- Modelled from the spec: the keyed upsert loop (§4.1 key algorithm).
Each incoming normalized row looks up its key; if present the stored row is
overwritten in place and marked updated, otherwise the row is appended and
marked inserted. -/
def upsertList (ki : Nat) (rows : List Row) : List Row → List Row × List DeltaRow
  | [] => (rows, [])
  | nr :: rest =>
    match findRowIdx ki rows (getKey ki nr) with
    | some i =>
      let p := upsertList ki (rows.set i nr) rest
      (p.1, ⟨false, nr⟩ :: p.2)
    | none =>
      let p := upsertList ki (rows ++ [nr]) rest
      (p.1, ⟨true, nr⟩ :: p.2)

/-- Modelled from the spec: `update(rows)` (§4.1).  The whole payload is
validated first (atomicity: on failure no mutation is applied); for a keyed
table rows are upserted, for an unkeyed table every row is an append.
Returns the mutated table and the Delta. -/
def Table.update (t : Table) (recs : List Record) :
    Except EngineError (Table × Delta) :=
  match checkRecords t.schema recs with
  | .error e => .error e
  | .ok _ =>
    let nrs := recs.map (normalizeRecord t.schema)
    match t.indexCol.bind (colIndex t.schema) with
    | some ki =>
      let p := upsertList ki t.rows nrs
      .ok ({ t with rows := p.1 }, ⟨t.schema, p.2⟩)
    | none =>
      .ok ({ t with rows := t.rows ++ nrs },
           ⟨t.schema, nrs.map (fun nr => ⟨true, nr⟩)⟩)

/-- Modelled from the spec: `size()` — current row count (§4.1). -/
def Table.size (t : Table) : Nat :=
  t.rows.length

/-- The committed table state after an `update` call: on failure the table is
left unchanged (atomic update, §4.1/§7). -/
def tableAfterUpdate (t : Table) (recs : List Record) : Table :=
  match t.update recs with
  | .ok p => p.1
  | .error _ => t

/-- The Delta produced by a successful `update`, if any. -/
def deltaOfUpdate (t : Table) (recs : List Record) : Option Delta :=
  match t.update recs with
  | .ok p => some p.2
  | .error _ => none

/-! ## Views -/

/-- Modelled from the spec: a filter predicate's comparison operator (§3). -/
inductive FilterOp where
  | feq
  | fne
  | flt
  | fgt
  | fle
  | fge
deriving DecidableEq

/-- Modelled from the spec: a filter is (column, operator, literal) (§3). -/
structure Filter where
  col : String
  op : FilterOp
  lit : Value
deriving DecidableEq

/-- Modelled from the spec: the aggregate functions
`sum not null`, `last`, `count`, `avg`, `min`, `max` (§4.2). -/
inductive AggFn where
  | sumNotNull
  | aggLast
  | aggCount
  | aggAvg
  | aggMin
  | aggMax
deriving DecidableEq

/-- Modelled from the spec: a computed column's operator, drawn from the
small fixed set of arithmetic and comparison operators (§4.2). -/
inductive CompOp where
  | cAdd
  | cSub
  | cMul
  | cDiv
  | cEq
  | cNe
  | cLt
  | cGt
deriving DecidableEq

/-- Modelled from the spec: a computed-column definition —
name, operator, ordered list of input column names (§3). -/
structure ComputedCol where
  column : String
  op : CompOp
  inputs : List String
deriving DecidableEq

/-- Modelled from the spec: a View's configuration — optional output column
selection, filter predicates, row-pivot columns, per-column aggregates,
computed columns and a sort specification (column, descending?) (§3).
Column pivots are a presentation-level nesting not exercised here. -/
structure ViewSpec where
  columns : Option (List String) := none
  filters : List Filter := []
  rowPivots : List String := []
  aggregates : List (String × AggFn) := []
  computedCols : List ComputedCol := []
  sortBy : List (String × Bool) := []
deriving DecidableEq

/-- View a numeric value as a rational, if numeric. -/
def asRat : Value → Option Rat
  | .vInt i => some (i : Rat)
  | .vFloat q => some q
  | _ => none

/-- Ordering test on values: numeric values compare numerically, strings
lexicographically, booleans with `false < true`; other combinations are
incomparable. -/
def valueLt (a b : Value) : Bool :=
  match asRat a, asRat b with
  | some x, some y => decide (x < y)
  | _, _ =>
    match a, b with
    | .vStr s, .vStr t => decide (s < t)
    | .vBool x, .vBool y => !x && y
    | .vTime x, .vTime y => decide (x < y)
    | .vDate x, .vDate y => decide (x < y)
    | _, _ => false

/-- Evaluate one filter comparison (§4.2: a predicate per source row). -/
def evalFilter (r : Record) (f : Filter) : Bool :=
  let v := (lookupField r f.col).getD .vNull
  match f.op with
  | .feq => v = f.lit
  | .fne => v ≠ f.lit
  | .flt => valueLt v f.lit
  | .fgt => valueLt f.lit v
  | .fle => valueLt v f.lit || v = f.lit
  | .fge => valueLt f.lit v || v = f.lit

/-- The pivot-bucket key of a record: its values at the pivot columns. -/
def pivotKey (pcols : List String) (r : Record) : List Value :=
  pcols.map (fun c => (lookupField r c).getD .vNull)

/-- Insert a record into its pivot bucket; a new bucket is appended at the
end, so buckets are in first-seen order (§4.2, design notes §9). -/
def addToGroups (gs : List (List Value × List Record)) (k : List Value)
    (r : Record) : List (List Value × List Record) :=
  match gs with
  | [] => [(k, [r])]
  | (k', rs) :: rest =>
    if k' = k then (k', rs ++ [r]) :: rest
    else (k', rs) :: addToGroups rest k r

/-- Group records by the distinct values of the pivot columns, buckets in
first-seen order (§4.2). -/
def groupRows (pcols : List String) (rs : List Record) :
    List (List Value × List Record) :=
  rs.foldl (fun gs r => addToGroups gs (pivotKey pcols r) r) []

/-- Sum of a list of numeric values: integral if all are integers,
floating otherwise; null when a non-numeric value appears. -/
def sumVals (vs : List Value) : Value :=
  if vs.all (fun v => (asRat v).isSome) then
    if vs.all (fun v => match v with | .vInt _ => true | _ => false) then
      .vInt (vs.foldl (fun a v => match v with | .vInt i => a + i | _ => a) 0)
    else
      .vFloat (vs.foldl (fun a v => a + (asRat v).getD 0) 0)
  else .vNull

/-- Modelled from the spec: apply an aggregate function to one column's
values within one pivot bucket (§4.2).  `sum not null`, `count` and `avg`
ignore nulls; `last` takes the bucket's last value; `min`/`max` act on
non-null values. -/
def aggApply (fn : AggFn) (vs : List Value) : Value :=
  let nn := vs.filter (fun v => v ≠ .vNull)
  match fn with
  | .sumNotNull => sumVals nn
  | .aggLast => (vs.getLast?).getD .vNull
  | .aggCount => .vInt nn.length
  | .aggAvg =>
    match sumVals nn with
    | .vInt i => if nn.length = 0 then .vNull else .vFloat ((i : Rat) / nn.length)
    | .vFloat q => if nn.length = 0 then .vNull else .vFloat (q / nn.length)
    | _ => .vNull
  | .aggMin => nn.foldl (fun a v => match a with
      | .vNull => v
      | _ => if valueLt v a then v else a) .vNull
  | .aggMax => nn.foldl (fun a v => match a with
      | .vNull => v
      | _ => if valueLt a v then v else a) .vNull

/-- The aggregate configured for a column; `last` when unspecified. -/
def aggFor (aggs : List (String × AggFn)) (c : String) : AggFn :=
  ((aggs.find? (fun p => p.1 = c)).map (fun p => p.2)).getD .aggLast

/-- Materialize one pivot bucket into an output record: the pivot columns
carry the bucket key, every non-pivot schema column carries its configured
aggregate over the bucket (§4.2). -/
def bucketRecord (schema : Schema) (pcols : List String)
    (aggs : List (String × AggFn)) (g : List Value × List Record) : Record :=
  pcols.zip g.1 ++
    (schema.filter (fun c => !pcols.contains c.1)).map (fun c =>
      (c.1, aggApply (aggFor aggs c.1) (g.2.map (fun r =>
        (lookupField r c.1).getD .vNull))))

/-- Set (or append) a field of a record. -/
def setField (r : Record) (name : String) (v : Value) : Record :=
  match r with
  | [] => [(name, v)]
  | p :: rest =>
    if p.1 = name then (name, v) :: rest else p :: setField rest name v

/-- Modelled from the spec: evaluate a binary computed-column operator.
Arithmetic promotes integers to floats when mixed; a null operand yields
null; division by zero yields the null sentinel rather than failing (§8). -/
def evalComp (op : CompOp) (a b : Value) : Value :=
  match op with
  | .cAdd =>
    match a, b with
    | .vInt x, .vInt y => .vInt (x + y)
    | _, _ =>
      match asRat a, asRat b with
      | some x, some y => .vFloat (x + y)
      | _, _ => .vNull
  | .cSub =>
    match a, b with
    | .vInt x, .vInt y => .vInt (x - y)
    | _, _ =>
      match asRat a, asRat b with
      | some x, some y => .vFloat (x - y)
      | _, _ => .vNull
  | .cMul =>
    match a, b with
    | .vInt x, .vInt y => .vInt (x * y)
    | _, _ =>
      match asRat a, asRat b with
      | some x, some y => .vFloat (x * y)
      | _, _ => .vNull
  | .cDiv =>
    match asRat a, asRat b with
    | some x, some y => if y = 0 then .vNull else .vFloat (x / y)
    | _, _ => .vNull
  | .cEq => .vBool (a = b)
  | .cNe => .vBool (a ≠ b)
  | .cLt => .vBool (valueLt a b)
  | .cGt => .vBool (valueLt b a)

/-- Look up every listed input column of a record; none if any is absent. -/
def lookupAll (r : Record) : List String → Option (List Value)
  | [] => some []
  | c :: cs =>
    match lookupField r c with
    | none => none
    | some v => (lookupAll r cs).map (fun vs => v :: vs)

/-- Evaluate the computed columns over one output record, in order, each
extending the record; an input column absent from the record fails with
`ComputedColumnInputError` (§4.2). -/
def applyComputed (ccs : List ComputedCol) (r : Record) :
    Except EngineError Record :=
  match ccs with
  | [] => .ok r
  | cc :: rest =>
    match lookupAll r cc.inputs with
    | none => .error .ComputedColumnInputError
    | some vs =>
      let v := match vs with
        | [a, b] => evalComp cc.op a b
        | _ => .vNull
      applyComputed rest (setField r cc.column v)

/-- Evaluate the computed columns over every output record, stopping at
the first failure. -/
def mapComputed (ccs : List ComputedCol) :
    List Record → Except EngineError (List Record)
  | [] => .ok []
  | r :: rest =>
    match applyComputed ccs r with
    | .error e => .error e
    | .ok r' =>
      match mapComputed ccs rest with
      | .error e => .error e
      | .ok rs => .ok (r' :: rs)

/-- Stable insertion of a record into a sorted list, by sort keys. -/
def sortInsert (le : Record → Record → Bool) (r : Record) :
    List Record → List Record
  | [] => [r]
  | x :: xs => if le x r then x :: sortInsert le r xs else r :: x :: xs

/-- Stable insertion sort over records. -/
def sortRecords (le : Record → Record → Bool) (rs : List Record) :
    List Record :=
  rs.foldr (fun r acc => sortInsert le r acc) []

/-- Lexicographic sort order from a sort specification
(column, descending?). -/
def sortLe (spec : List (String × Bool)) (a b : Record) : Bool :=
  match spec with
  | [] => true
  | (c, desc) :: rest =>
    let va := (lookupField a c).getD .vNull
    let vb := (lookupField b c).getD .vNull
    if va = vb then sortLe rest a b
    else if desc then valueLt vb va else valueLt va vb

/-- A stored row as a record, pairing schema column names with values. -/
def rowToRecord (schema : Schema) (row : Row) : Record :=
  (schema.map (fun c => c.1)).zip row

/-- Modelled from the spec: `get_rows()` recomputes
filter → pivot/aggregate → computed-columns → sort, in that fixed order,
against the current Table state (§4.2); the optional output column
selection is applied to the result. -/
def getRows (t : Table) (spec : ViewSpec) : Except EngineError (List Record) :=
  let recs := t.rows.map (rowToRecord t.schema)
  let recs := recs.filter (fun r => spec.filters.all (evalFilter r))
  let recs :=
    if spec.rowPivots.isEmpty then recs
    else (groupRows spec.rowPivots recs).map
      (bucketRecord t.schema spec.rowPivots spec.aggregates)
  match mapComputed spec.computedCols recs with
  | .error e => .error e
  | .ok recs =>
    let recs := if spec.sortBy.isEmpty then recs
      else sortRecords (sortLe spec.sortBy) recs
    .ok (match spec.columns with
      | none => recs
      | some cols => recs.map (fun r =>
          cols.filterMap (fun c => (lookupField r c).map (fun v => (c, v)))))

/-! ## Update propagation -/

/-- Records carried by a Delta, for forwarding into a downstream table:
each delta row paired with the source schema's column names (§4.2
`on_update` with `mode="row"` forwards the raw rows). -/
def forwardDelta (d : Delta) : List Record :=
  d.rows.map (fun dr => rowToRecord d.schema dr.row)

/-- Modelled from the spec: one synchronous propagation step of the
update-propagation graph (§4.3): table `a` is updated with `batch`, and —
before that update returns — the attached view's callback forwards the
resulting Delta's rows into table `b` (as `update_holdings` and
`update_total` do in the notebook).  A callback failure is isolated and
leaves `b` unchanged (§7). -/
def cascadeUpdate (a b : Table) (batch : List Record) : Table × Table :=
  match a.update batch with
  | .ok p => (p.1, tableAfterUpdate b (forwardDelta p.2))
  | .error _ => (a, b)

/-! ## The notebook's tables and propagation graph

The schemas below are modelled from the spec's §6 schema definitions
(`schemas.py` itself is not part of the repository); the propagation edges
are embedded from the notebook source (`jupytercon.ipynb`). -/

/-- Modelled from the spec: the "last quote" schema with
symbol/price/size/time columns (§6). -/
def last_quote_schema : Schema :=
  [("symbol", .tStr), ("price", .tFloat), ("size", .tInt), ("time", .tTime)]

/-- Modelled from the spec: the "holdings" schema with
symbol/quantity/price columns (§6). -/
def holdings_schema : Schema :=
  [("symbol", .tStr), ("quantity", .tInt), ("price", .tFloat)]

/-- Modelled from the spec: the "chart" schema with
date/open/high/low/close/volume/symbol/quantity columns (§6). -/
def charts_schema : Schema :=
  [("date", .tDate), ("open", .tFloat), ("high", .tFloat), ("low", .tFloat),
   ("close", .tFloat), ("volume", .tInt), ("symbol", .tStr),
   ("quantity", .tInt)]

/-- The tables the notebook wires together with `on_update` callbacks. -/
inductive NotebookTable where
  | quotes
  | holdings
  | holdingsTotal
  | charts
deriving DecidableEq, Fintype

/-- The notebook's update-propagation edges: `quotes_view.on_update`
forwards deltas of `quotes_table` into `holdings_table`
(`update_holdings`), `holdings_view.on_update` forwards deltas of
`holdings_table` into `holdings_total_table` (`update_total`); no callback
writes into any other table, and `holdings_total_table` and `charts_table`
have no forwarding subscriber. -/
def subscribers : NotebookTable → List NotebookTable
  | .quotes => [.holdings]
  | .holdings => [.holdingsTotal]
  | .holdingsTotal => []
  | .charts => []

/-- Tables reached by the synchronous cascade after exactly `k`
propagation levels starting from `n`. -/
def reachedAfter : NotebookTable → Nat → List NotebookTable
  | n, 0 => [n]
  | n, k + 1 => (subscribers n).flatMap (fun m => reachedAfter m k)

/-! ## Observations used to state the upsert and cascade properties -/

/-- The key values of the stored rows, in storage order. -/
def keysOf (ki : Nat) (rows : List Row) : List Value :=
  rows.map (getKey ki)

/-- The first stored row whose key is `k`, if any.  Under the table
invariant (unique keys) this is the row for `k`. -/
def lookupRow (ki : Nat) (rows : List Row) (k : Value) : Option Row :=
  rows.find? (fun r => getKey ki r = k)

/-- The first of two optional rows that is present, preferring the first. -/
def orO (a b : Option Row) : Option Row :=
  match a with
  | some r => some r
  | none => b

/-- The last row with key `k` in a batch of normalized rows: the latest
values for that key within the batch. -/
def lastWith (ki : Nat) (nrs : List Row) (k : Value) : Option Row :=
  match nrs with
  | [] => none
  | nr :: rest =>
    orO (lastWith ki rest k) (if getKey ki nr = k then some nr else none)

/-- The row a record of a batch sent to table `a` becomes once its delta is
forwarded into table `b` by an `on_update` callback: normalized for `a`'s
schema, carried as a record under `a`'s column names, normalized again for
`b`'s schema. -/
def throughTables (asch bsch : Schema) (r : Record) : Row :=
  normalizeRecord bsch (rowToRecord asch (normalizeRecord asch r))

/-- Every row has one value per schema column and every value matches its
column's declared type (the §3 Table invariant). -/
def rowsConform (schema : Schema) (rows : List Row) : Bool :=
  rows.all (fun r =>
    r.length = schema.length &&
    (r.zip schema).all (fun p => typeMatches p.1 p.2.2))

/-! ## Snapshot codec

Modelled from the spec (§4.4): `encode` writes column names and types once,
followed by one contiguous typed array per column (length-prefixed, nulls
by a per-value presence sentinel), followed by the row count; `decode` is
the inverse and fails with `CorruptSnapshotError` on a malformed header, a
column length disagreeing with the row-count trailer, or an unrecognized
type tag.  Tokens stand for the atoms of the byte stream. -/

/-- An atom of the snapshot byte stream. -/
inductive Tok where
  | n (x : Nat)
  | s (x : String)
deriving DecidableEq

/-- The wire tag of a column type. -/
def typeTag : ColType → Nat
  | .tInt => 0
  | .tFloat => 1
  | .tStr => 2
  | .tBool => 3
  | .tTime => 4
  | .tDate => 5

/-- Decode a wire tag; unrecognized tags are rejected. -/
def tagType : Nat → Option ColType
  | 0 => some .tInt
  | 1 => some .tFloat
  | 2 => some .tStr
  | 3 => some .tBool
  | 4 => some .tTime
  | 5 => some .tDate
  | _ => none

/-- Sign-magnitude encoding of an integer. -/
def encInt (i : Int) : List Tok :=
  [.n (if i < 0 then 1 else 0), .n i.natAbs]

/-- Decode a sign-magnitude integer. -/
def decInt : List Tok → Option (Int × List Tok)
  | .n s :: .n m :: rest =>
    if s = 0 then some ((m : Int), rest)
    else if s = 1 then some (-(m : Int), rest)
    else none
  | _ => none

/-- Encode one value of a typed column: a presence sentinel, then the
payload in the column type's wire format. -/
def encVal : ColType → Value → List Tok
  | _, .vNull => [.n 0]
  | .tInt, .vInt i => .n 1 :: encInt i
  | .tFloat, .vFloat q => .n 1 :: (encInt q.num ++ [.n q.den])
  | .tStr, .vStr s => [.n 1, .s s]
  | .tBool, .vBool b => [.n 1, .n (cond b 1 0)]
  | .tTime, .vTime t => .n 1 :: encInt t
  | .tDate, .vDate d => .n 1 :: encInt d
  | _, _ => []

/-- Decode one value of a typed column. -/
def decVal (t : ColType) : List Tok → Option (Value × List Tok)
  | .n 0 :: rest => some (.vNull, rest)
  | .n 1 :: rest =>
    match t with
    | .tInt => (decInt rest).map (fun p => (.vInt p.1, p.2))
    | .tFloat =>
      match decInt rest with
      | some (nu, .n de :: rest') =>
        if de = 0 then none
        else some (.vFloat ((nu : Rat) / (de : Rat)), rest')
      | _ => none
    | .tStr =>
      match rest with
      | .s s :: rest' => some (.vStr s, rest')
      | _ => none
    | .tBool =>
      match rest with
      | .n 0 :: rest' => some (.vBool false, rest')
      | .n 1 :: rest' => some (.vBool true, rest')
      | _ => none
    | .tTime => (decInt rest).map (fun p => (.vTime p.1, p.2))
    | .tDate => (decInt rest).map (fun p => (.vDate p.1, p.2))
  | _ => none

/-- Decode exactly `k` values of a typed column. -/
def decVals (t : ColType) : Nat → List Tok → Option (List Value × List Tok)
  | 0, ts => some ([], ts)
  | k + 1, ts =>
    match decVal t ts with
    | some (v, ts') => (decVals t k ts').map (fun p => (v :: p.1, p.2))
    | none => none

/-- One column of the stream: its declared length, then its values. -/
def encCol (t : ColType) (vs : List Value) : List Tok :=
  .n vs.length :: vs.flatMap (encVal t)

/-- The typed column arrays for the schema columns starting at position
`j`, each column taken across all rows. -/
def encCols (rows : List Row) : Schema → Nat → List Tok
  | [], _ => []
  | c :: cs, j =>
    encCol c.2 (rows.map (fun r => r.getD j .vNull)) ++ encCols rows cs (j + 1)

/-- Modelled from the spec: `encode(rows, schema)` — the column count,
the column names and type tags, one length-prefixed typed array per column,
and the row-count trailer (§4.4). -/
def encode (rows : List Row) (schema : Schema) : List Tok :=
  .n schema.length
    :: (schema.flatMap (fun c => [.s c.1, .n (typeTag c.2)])
      ++ encCols rows schema 0
      ++ [.n rows.length])

/-- The columnar transposition of `rows` along the schema columns starting
at position `j`: what `decode` recovers column by column. -/
def colsOf (rows : List Row) : Schema → Nat → List (List Value)
  | [], _ => []
  | _ :: cs, j =>
    rows.map (fun r => r.getD j .vNull) :: colsOf rows cs (j + 1)

/-- Column-wise reading of the §3 Table invariant: along the schema columns
starting at position `j`, every row's value matches the declared type. -/
def colsConform (rows : List Row) : Schema → Nat → Bool
  | [], _ => true
  | c :: cs, j =>
    rows.all (fun r => typeMatches (r.getD j .vNull) c.2) &&
      colsConform rows cs (j + 1)

/-- The values of one row along the schema columns starting at position
`j`: what the transposition restores row by row. -/
def takeFrom (r : Row) : Schema → Nat → List Value
  | [], _ => []
  | _ :: cs, j => r.getD j .vNull :: takeFrom r cs (j + 1)

/-- Decode the header's `k` (name, type-tag) column declarations. -/
def decSchema : Nat → List Tok → Option (Schema × List Tok)
  | 0, ts => some ([], ts)
  | k + 1, .s nm :: .n tg :: ts =>
    match tagType tg with
    | some ty => (decSchema k ts).map (fun p => ((nm, ty) :: p.1, p.2))
    | none => none
  | _ + 1, _ => none

/-- Decode one length-prefixed typed array per schema column. -/
def decCols : Schema → List Tok → Option (List (List Value) × List Tok)
  | [], ts => some ([], ts)
  | c :: cs, .n len :: ts =>
    match decVals c.2 len ts with
    | some (vs, ts') => (decCols cs ts').map (fun p => (vs :: p.1, p.2))
    | none => none
  | _ :: _, _ => none

/-- Modelled from the spec: `decode(bytes)` — parse the header, the typed
column arrays and the row-count trailer, reassemble the rows, and fail with
`CorruptSnapshotError` if the header is malformed, a declared column length
disagrees with the row-count trailer, or a type tag is unrecognized
(§4.4). -/
def decode (ts : List Tok) : Except EngineError (Schema × List Row) :=
  match ts with
  | .n ncols :: rest =>
    match decSchema ncols rest with
    | some (schema, rest1) =>
      match decCols schema rest1 with
      | some (cols, rest2) =>
        match rest2 with
        | [.n rc] =>
          if cols.all (fun c => c.length = rc) then
            .ok (schema,
              (List.range rc).map (fun i => cols.map (fun c => c.getD i .vNull)))
          else .error .CorruptSnapshotError
        | _ => .error .CorruptSnapshotError
      | none => .error .CorruptSnapshotError
    | none => .error .CorruptSnapshotError
  | _ => .error .CorruptSnapshotError

/-- Modelled from the spec: `to_snapshot()` — serialize the table's current
rows via the Snapshot Codec (§4.1/§4.2). -/
def Table.toSnapshot (t : Table) : List Tok :=
  encode t.rows t.schema

end Engine

/-! # Theorems -/

namespace Engine

/-- Helper: after three propagation levels the notebook's cascade has
reached no table at all. -/
theorem reachedAfter_add_three (k : Nat) :
    ∀ n : NotebookTable, reachedAfter n (3 + k) = [] := by
  induction k with
  | zero => decide
  | succ k ih =>
    intro n
    have h3 : 3 + (k + 1) = (3 + k) + 1 := by omega
    rw [h3]
    show (subscribers n).flatMap (fun m => reachedAfter m (3 + k)) = []
    exact List.flatMap_eq_nil_iff.mpr (fun m _ => ih m)

/-- C10: the notebook's update-propagation graph
(quotes → holdings → holdings-total, nothing feeding back) is acyclic:
every synchronous cascade is exhausted after at most two propagation
levels, and no table is ever reached again from itself in any positive
number of levels, so no callback re-enters a table whose update is already
on the call stack. -/
theorem notebook_propagation_acyclic :
    (∀ (n : NotebookTable) (k : Nat), reachedAfter n (3 + k) = []) ∧
    (∀ (n : NotebookTable) (k : Nat), 0 < k → n ∉ reachedAfter n k) := by
  constructor
  · intro n k
    exact reachedAfter_add_three k n
  · intro n k hk
    match k with
    | 1 => revert n; decide
    | 2 => revert n; decide
    | m + 3 =>
      have h3 : m + 3 = 3 + m := by omega
      rw [h3, reachedAfter_add_three m n]
      exact List.not_mem_nil n

/-- C10 witness: the hypothesis `0 < k` holds at `k = 2`, where the quotes
table does not re-enter itself. -/
theorem notebook_propagation_acyclic_witness :
    0 < 2 ∧ NotebookTable.quotes ∉ reachedAfter NotebookTable.quotes 2 :=
  ⟨by decide, notebook_propagation_acyclic.2 .quotes 2 (by decide)⟩

/-- C2: an update payload in which some row references a column name absent
from the table's schema is rejected wholesale with `UnknownColumnError`:
the update raises, and the committed table state — row count and all stored
values — is unchanged. -/
theorem update_unknown_column_rejected (t : Table) (recs : List Record)
    (h : hasUnknown t.schema recs = true) :
    t.update recs = .error .UnknownColumnError ∧
    tableAfterUpdate t recs = t ∧
    (tableAfterUpdate t recs).size = t.size := by
  have hc : checkRecords t.schema recs = .error .UnknownColumnError := by
    simp [checkRecords, h]
  refine ⟨?_, ?_, ?_⟩
  · simp [Table.update, hc]
  · simp [tableAfterUpdate, Table.update, hc]
  · simp [tableAfterUpdate, Table.update, hc]

/-- C2 witness: forwarding a last-quote delta row (which carries a `size`
column) into a table with the holdings schema — `size` is absent from the
holdings schema, so the update is rejected and the table is unchanged. -/
theorem update_unknown_column_rejected_witness :
    hasUnknown holdings_schema
      [[("symbol", .vStr "AAPL"), ("price", .vFloat 10),
        ("size", .vInt 100), ("time", .vTime 1)]] = true ∧
    Table.update ⟨holdings_schema, some "symbol", []⟩
      [[("symbol", .vStr "AAPL"), ("price", .vFloat 10),
        ("size", .vInt 100), ("time", .vTime 1)]]
      = .error .UnknownColumnError ∧
    tableAfterUpdate ⟨holdings_schema, some "symbol", []⟩
      [[("symbol", .vStr "AAPL"), ("price", .vFloat 10),
        ("size", .vInt 100), ("time", .vTime 1)]]
      = ⟨holdings_schema, some "symbol", []⟩ :=
  ⟨by decide,
   (update_unknown_column_rejected _ _ (by decide)).1,
   (update_unknown_column_rejected _ _ (by decide)).2.1⟩

/-- C6: a view with row-pivot on `symbol` and aggregate `sum not null` on
`value`, over the rows (A,3), (A,4), (B,5), yields exactly (A,7), (B,5);
in `getRows` the grouping runs after filtering and before computed columns
and sort. -/
theorem aggregate_sum_not_null_correct :
    getRows
      ⟨[("symbol", .tStr), ("value", .tInt)], none,
       [[.vStr "A", .vInt 3], [.vStr "A", .vInt 4], [.vStr "B", .vInt 5]]⟩
      { rowPivots := ["symbol"], aggregates := [("value", .sumNotNull)] }
    = .ok [[("symbol", .vStr "A"), ("value", .vInt 7)],
           [("symbol", .vStr "B"), ("value", .vInt 5)]] := by decide

/-- C7: a view with computed column `value = quantity * price` yields
`value = 50.0` on the row (quantity 5, price 10.0); the computed `/`
operator on a zero divisor yields the null sentinel, not a failure. -/
theorem computed_column_correct :
    getRows
      ⟨[("quantity", .tInt), ("price", .tFloat)], none, [[.vInt 5, .vFloat 10]]⟩
      { computedCols := [⟨"value", .cMul, ["quantity", "price"]⟩] }
    = .ok [[("quantity", .vInt 5), ("price", .vFloat 10),
            ("value", .vFloat 50)]] ∧
    getRows
      ⟨[("quantity", .tInt), ("divisor", .tInt)], none, [[.vInt 5, .vInt 0]]⟩
      { computedCols := [⟨"ratio", .cDiv, ["quantity", "divisor"]⟩] }
    = .ok [[("quantity", .vInt 5), ("divisor", .vInt 0),
            ("ratio", .vNull)]] := by
  constructor
  · simp only [getRows, rowToRecord, List.map_cons, List.map_nil,
      List.zip_cons_cons, List.zip_nil_right, List.all_nil, List.filter_cons,
      List.filter_nil, List.isEmpty_nil]
    simp only [mapComputed, applyComputed, lookupAll, lookupField]
    simp
    norm_num [evalComp, asRat, setField]
    decide
  · simp only [getRows, rowToRecord, List.map_cons, List.map_nil,
      List.zip_cons_cons, List.zip_nil_right, List.all_nil, List.filter_cons,
      List.filter_nil, List.isEmpty_nil]
    simp only [mapComputed, applyComputed, lookupAll, lookupField]
    simp
    norm_num [evalComp, asRat, setField]
    decide

/-- C8: a view filtering `symbol == "SPY"` over rows with symbols
SPY, AAPL, SPY returns exactly the two SPY rows in source order; the
filter is applied per source row, before any pivoting. -/
theorem filter_correct :
    getRows
      ⟨[("symbol", .tStr), ("price", .tFloat)], none,
       [[.vStr "SPY", .vFloat 1], [.vStr "AAPL", .vFloat 2],
        [.vStr "SPY", .vFloat 3]]⟩
      { filters := [⟨"symbol", .feq, .vStr "SPY"⟩] }
    = .ok [[("symbol", .vStr "SPY"), ("price", .vFloat 1)],
           [("symbol", .vStr "SPY"), ("price", .vFloat 3)]] := by decide

/-- C5: snapshot encoding is deterministic — it is a function of the
logical rows and the schema alone, so any two tables holding the same rows
under the same schema (however they were reached, keyed or not) produce
byte-for-byte identical snapshots. -/
theorem snapshot_deterministic (t1 t2 : Table)
    (h1 : t1.schema = t2.schema) (h2 : t1.rows = t2.rows) :
    t1.toSnapshot = t2.toSnapshot := by
  unfold Table.toSnapshot
  rw [h1, h2]

/-- C5 witness: a keyed and an unkeyed table with identical rows encode to
the identical token stream. -/
theorem snapshot_deterministic_witness :
    Table.toSnapshot ⟨holdings_schema, some "symbol",
        [[.vStr "SPY", .vInt 7, .vFloat 3]]⟩
      = Table.toSnapshot ⟨holdings_schema, none,
        [[.vStr "SPY", .vInt 7, .vFloat 3]]⟩ :=
  snapshot_deterministic _ _ rfl rfl

/-! ### The upsert loop: key/lookup lemmas -/

theorem orO_none_right (a : Option Row) : orO a none = a := by
  cases a <;> rfl

theorem orO_idem (a b : Option Row) : orO a (orO a b) = orO a b := by
  cases a <;> rfl

theorem lookupRow_cons (ki : Nat) (r : Row) (rest : List Row) (k : Value) :
    lookupRow ki (r :: rest) k
      = if getKey ki r = k then some r else lookupRow ki rest k := by
  by_cases h : getKey ki r = k
  · simp [lookupRow, List.find?_cons_of_pos, h]
  · simp [lookupRow, List.find?_cons_of_neg, h]

theorem lookupRow_append_single (ki : Nat) (rows : List Row) (nr : Row)
    (k : Value) :
    lookupRow ki (rows ++ [nr]) k
      = orO (lookupRow ki rows k)
          (if getKey ki nr = k then some nr else none) := by
  induction rows with
  | nil =>
    simp only [List.nil_append, lookupRow_cons]
    by_cases h : getKey ki nr = k <;> simp [h, lookupRow, orO]
  | cons r rest ih =>
    rw [List.cons_append, lookupRow_cons, lookupRow_cons]
    by_cases h : getKey ki r = k <;> simp [h, orO, ih]

theorem lookupRow_eq_none (ki : Nat) (rows : List Row) (k : Value)
    (h : k ∉ keysOf ki rows) : lookupRow ki rows k = none := by
  induction rows with
  | nil => rfl
  | cons r rest ih =>
    simp only [keysOf, List.map_cons, List.mem_cons, not_or] at h
    rw [lookupRow_cons, if_neg (fun hh => h.1 hh.symm)]
    exact ih (by simpa [keysOf] using h.2)

theorem findRowIdx_none_iff (ki : Nat) (rows : List Row) (k : Value) :
    findRowIdx ki rows k = none ↔ k ∉ keysOf ki rows := by
  induction rows with
  | nil => simp [findRowIdx, keysOf]
  | cons r rest ih =>
    by_cases h : getKey ki r = k
    · simp [findRowIdx, h, keysOf]
    · have hrk : ¬k = getKey ki r := fun hh => h hh.symm
      simp [findRowIdx, h, Option.map_eq_none', ih, keysOf, hrk]

theorem keysOf_set_of_found (ki : Nat) (rows : List Row) (nr : Row) (i : Nat)
    (h : findRowIdx ki rows (getKey ki nr) = some i) :
    keysOf ki (rows.set i nr) = keysOf ki rows := by
  induction rows generalizing i with
  | nil => simp [findRowIdx] at h
  | cons r rest ih =>
    by_cases hk : getKey ki r = getKey ki nr
    · simp only [findRowIdx, hk, if_pos rfl] at h
      obtain rfl : (0 : Nat) = i := Option.some.inj h
      simp [keysOf, hk]
    · simp only [findRowIdx, if_neg hk, Option.map_eq_some'] at h
      obtain ⟨j, hj, rfl⟩ := h
      simp [keysOf, List.set_cons_succ] at *
      exact ih j hj

theorem lookupRow_set_of_found (ki : Nat) (rows : List Row) (nr : Row)
    (i : Nat) (h : findRowIdx ki rows (getKey ki nr) = some i) (k : Value) :
    lookupRow ki (rows.set i nr) k
      = if getKey ki nr = k then some nr else lookupRow ki rows k := by
  induction rows generalizing i with
  | nil => simp [findRowIdx] at h
  | cons r rest ih =>
    by_cases hk : getKey ki r = getKey ki nr
    · simp only [findRowIdx, hk, if_pos rfl] at h
      obtain rfl : (0 : Nat) = i := Option.some.inj h
      rw [List.set_cons_zero, lookupRow_cons, lookupRow_cons]
      by_cases hnk : getKey ki nr = k
      · rw [if_pos hnk, if_pos hnk]
      · rw [if_neg hnk, if_neg hnk, if_neg (hk ▸ hnk)]
    · simp only [findRowIdx, if_neg hk, Option.map_eq_some'] at h
      obtain ⟨j, hj, rfl⟩ := h
      rw [List.set_cons_succ, lookupRow_cons, lookupRow_cons]
      by_cases hrk : getKey ki r = k
      · have hnk : ¬getKey ki nr = k := fun hh => hk (hrk.trans hh.symm)
        rw [if_pos hrk, if_neg hnk, if_pos hrk]
      · rw [if_neg hrk, if_neg hrk, ih j hj]

theorem findRowIdx_some_mem (ki : Nat) (rows : List Row) (k : Value) (i : Nat)
    (h : findRowIdx ki rows k = some i) : k ∈ keysOf ki rows := by
  by_contra hc
  rw [(findRowIdx_none_iff ki rows k).2 hc] at h
  exact Option.noConfusion h

theorem keysOf_append_single (ki : Nat) (rows : List Row) (nr : Row) :
    keysOf ki (rows ++ [nr]) = keysOf ki rows ++ [getKey ki nr] := by
  simp [keysOf]

/-! ### The upsert loop: whole-batch lemmas -/

theorem upsertList_delta_rows (ki : Nat) (nrs : List Row) :
    ∀ rows, ((upsertList ki rows nrs).2).map DeltaRow.row = nrs := by
  induction nrs with
  | nil => intro rows; rfl
  | cons nr rest ih =>
    intro rows
    cases h : findRowIdx ki rows (getKey ki nr) <;>
      simp [upsertList, h, ih]

theorem lookupRow_upsertList (ki : Nat) (nrs : List Row) :
    ∀ rows k, lookupRow ki (upsertList ki rows nrs).1 k
      = orO (lastWith ki nrs k) (lookupRow ki rows k) := by
  induction nrs with
  | nil => intro rows k; simp [upsertList, lastWith, orO]
  | cons nr rest ih =>
    intro rows k
    cases h : findRowIdx ki rows (getKey ki nr) with
    | some i =>
      simp only [upsertList, h]
      rw [ih, lookupRow_set_of_found ki rows nr i h k, lastWith]
      cases hl : lastWith ki rest k with
      | some r => simp [orO]
      | none => by_cases hnk : getKey ki nr = k <;> simp [orO, hnk]
    | none =>
      simp only [upsertList, h]
      rw [ih, lookupRow_append_single, lastWith]
      have hnone := lookupRow_eq_none ki rows (getKey ki nr)
        ((findRowIdx_none_iff ki rows _).1 h)
      by_cases hnk : getKey ki nr = k
      · rw [← hnk] at *
        cases hl : lastWith ki rest (getKey ki nr) <;>
          simp [orO, hnk, hnone, orO_none_right]
      · rw [if_neg hnk]
        cases hl : lastWith ki rest k with
        | some r => simp [orO]
        | none => cases hlk : lookupRow ki rows k <;> simp [orO, hlk]

theorem mem_keysOf_upsertList (ki : Nat) (nrs : List Row) :
    ∀ rows k, k ∈ keysOf ki (upsertList ki rows nrs).1
      ↔ k ∈ keysOf ki rows ∨ k ∈ keysOf ki nrs := by
  induction nrs with
  | nil => intro rows k; simp [upsertList, keysOf]
  | cons nr rest ih =>
    intro rows k
    cases h : findRowIdx ki rows (getKey ki nr) with
    | some i =>
      simp only [upsertList, h]
      rw [ih, keysOf_set_of_found ki rows nr i h]
      have hmem := findRowIdx_some_mem ki rows (getKey ki nr) i h
      simp only [keysOf, List.map_cons, List.mem_cons]
      constructor
      · rintro (hr | hrest)
        · exact Or.inl hr
        · exact Or.inr (Or.inr hrest)
      · rintro (hr | rfl | hrest)
        · exact Or.inl hr
        · exact Or.inl hmem
        · exact Or.inr hrest
    | none =>
      simp only [upsertList, h]
      rw [ih, keysOf_append_single]
      simp only [keysOf, List.map_cons, List.mem_cons, List.mem_append,
        List.mem_singleton]
      tauto

theorem nodup_keysOf_upsertList (ki : Nat) (nrs : List Row) :
    ∀ rows, (keysOf ki rows).Nodup →
      (keysOf ki (upsertList ki rows nrs).1).Nodup := by
  induction nrs with
  | nil => intro rows hnd; simpa [upsertList] using hnd
  | cons nr rest ih =>
    intro rows hnd
    cases h : findRowIdx ki rows (getKey ki nr) with
    | some i =>
      simp only [upsertList, h]
      exact ih _ (by rwa [keysOf_set_of_found ki rows nr i h])
    | none =>
      simp only [upsertList, h]
      refine ih _ ?_
      rw [keysOf_append_single, List.nodup_append]
      refine ⟨hnd, List.nodup_singleton _, ?_⟩
      intro a ha hb
      rw [List.mem_singleton] at hb
      subst hb
      exact (findRowIdx_none_iff ki rows _).1 h ha

theorem keysOf_upsertList_all_found (ki : Nat) (nrs : List Row) :
    ∀ rows, (∀ nr ∈ nrs, getKey ki nr ∈ keysOf ki rows) →
      keysOf ki (upsertList ki rows nrs).1 = keysOf ki rows := by
  induction nrs with
  | nil => intro rows _; rfl
  | cons nr rest ih =>
    intro rows hall
    cases h : findRowIdx ki rows (getKey ki nr) with
    | some i =>
      simp only [upsertList, h]
      rw [ih _ ?_, keysOf_set_of_found ki rows nr i h]
      intro nr' hnr'
      rw [keysOf_set_of_found ki rows nr i h]
      exact hall nr' (List.mem_cons_of_mem _ hnr')
    | none =>
      exact absurd (hall nr (List.mem_cons_self _ _))
        ((findRowIdx_none_iff ki rows _).1 h)

theorem flags_upsertList_all_found (ki : Nat) (nrs : List Row) :
    ∀ rows, (∀ nr ∈ nrs, getKey ki nr ∈ keysOf ki rows) →
      ∀ dr ∈ (upsertList ki rows nrs).2, dr.inserted = false := by
  induction nrs with
  | nil => intro rows _ dr hdr; simp [upsertList] at hdr
  | cons nr rest ih =>
    intro rows hall
    cases h : findRowIdx ki rows (getKey ki nr) with
    | some i =>
      simp only [upsertList, h]
      intro dr hdr
      rcases List.mem_cons.1 hdr with rfl | hdr'
      · rfl
      · refine ih _ ?_ dr hdr'
        intro nr' hnr'
        rw [keysOf_set_of_found ki rows nr i h]
        exact hall nr' (List.mem_cons_of_mem _ hnr')
    | none =>
      exact absurd (hall nr (List.mem_cons_self _ _))
        ((findRowIdx_none_iff ki rows _).1 h)

theorem rows_eq_of_keys_lookup (ki : Nat) :
    ∀ rows1 rows2 : List Row, keysOf ki rows1 = keysOf ki rows2 →
      (keysOf ki rows1).Nodup →
      (∀ k, lookupRow ki rows1 k = lookupRow ki rows2 k) →
      rows1 = rows2 := by
  intro rows1
  induction rows1 with
  | nil =>
    intro rows2 hk _ _
    cases rows2 with
    | nil => rfl
    | cons r2 rest2 => simp [keysOf] at hk
  | cons r1 rest1 ih =>
    intro rows2 hk hnd hl
    cases rows2 with
    | nil => simp [keysOf] at hk
    | cons r2 rest2 =>
      simp only [keysOf, List.map_cons, List.cons.injEq] at hk
      have hr : r1 = r2 := by
        have h1 := hl (getKey ki r1)
        rw [lookupRow_cons, if_pos rfl, lookupRow_cons, if_pos hk.1.symm] at h1
        exact Option.some.inj h1
      subst hr
      simp only [keysOf, List.map_cons, List.nodup_cons] at hnd
      have hrest : rest1 = rest2 := by
        refine ih rest2 hk.2 hnd.2 ?_
        intro k
        by_cases hkk : k = getKey ki r1
        · subst hkk
          rw [lookupRow_eq_none ki rest1 _ hnd.1,
            lookupRow_eq_none ki rest2 _
              (by rw [keysOf, ← hk.2]; exact hnd.1)]
        · have h2 := hl k
          rw [lookupRow_cons, if_neg (fun hh => hkk hh.symm),
            lookupRow_cons, if_neg (fun hh => hkk hh.symm)] at h2
          exact h2
      rw [hrest]

/-! ### The shape of a successful update -/

theorem update_keyed_eq (t : Table) (recs : List Record) (ki : Nat)
    (hki : t.indexCol.bind (colIndex t.schema) = some ki)
    (hok : checkRecords t.schema recs = .ok ()) :
    t.update recs = .ok
      ({ t with rows :=
          (upsertList ki t.rows (recs.map (normalizeRecord t.schema))).1 },
       ⟨t.schema,
        (upsertList ki t.rows (recs.map (normalizeRecord t.schema))).2⟩) := by
  simp [Table.update, hok, hki]

/-- C4: applying the same well-typed payload twice to a keyed table with
unique keys leaves the table after the second call equal to the table after
the first call (same row count, same values), the second call's Delta
carries the same rows as the first call's, and every row of the second
Delta is marked updated, not inserted. -/
theorem upsert_idempotent (t : Table) (recs : List Record) (ki : Nat)
    (hki : t.indexCol.bind (colIndex t.schema) = some ki)
    (hnd : (keysOf ki t.rows).Nodup)
    (hok : checkRecords t.schema recs = .ok ()) :
    tableAfterUpdate (tableAfterUpdate t recs) recs
      = tableAfterUpdate t recs ∧
    (deltaOfUpdate (tableAfterUpdate t recs) recs).map
        (fun d => d.rows.map DeltaRow.row)
      = (deltaOfUpdate t recs).map (fun d => d.rows.map DeltaRow.row) ∧
    (∀ d, deltaOfUpdate (tableAfterUpdate t recs) recs = some d →
      ∀ dr ∈ d.rows, dr.inserted = false) := by
  have h1 := update_keyed_eq t recs ki hki hok
  have ht1 : tableAfterUpdate t recs
      = { t with rows :=
          (upsertList ki t.rows (recs.map (normalizeRecord t.schema))).1 } := by
    simp [tableAfterUpdate, h1]
  have hki2 : (tableAfterUpdate t recs).indexCol.bind
      (colIndex (tableAfterUpdate t recs).schema) = some ki := by
    rw [ht1]; exact hki
  have hok2 : checkRecords (tableAfterUpdate t recs).schema recs = .ok () := by
    rw [ht1]; exact hok
  have h2 := update_keyed_eq (tableAfterUpdate t recs) recs ki hki2 hok2
  rw [ht1] at h2
  simp only at h2
  have hpresent : ∀ nr ∈ recs.map (normalizeRecord t.schema), getKey ki nr ∈
      keysOf ki (upsertList ki t.rows (recs.map (normalizeRecord t.schema))).1 :=
    fun nr hnr =>
      (mem_keysOf_upsertList ki (recs.map (normalizeRecord t.schema))
        t.rows (getKey ki nr)).2
        (Or.inr (List.mem_map_of_mem (getKey ki) hnr))
  have hrows : (upsertList ki
      (upsertList ki t.rows (recs.map (normalizeRecord t.schema))).1
      (recs.map (normalizeRecord t.schema))).1
      = (upsertList ki t.rows (recs.map (normalizeRecord t.schema))).1 := by
    refine rows_eq_of_keys_lookup ki _ _ ?_ ?_ ?_
    · exact keysOf_upsertList_all_found ki _ _ hpresent
    · rw [keysOf_upsertList_all_found ki _ _ hpresent]
      exact nodup_keysOf_upsertList ki _ t.rows hnd
    · intro k
      rw [lookupRow_upsertList, lookupRow_upsertList, orO_idem]
  refine ⟨?_, ?_, ?_⟩
  · rw [ht1]
    simp only [tableAfterUpdate, h2]
    simp [hrows]
  · simp only [deltaOfUpdate, h1, ht1, h2, Option.map_some']
    rw [upsertList_delta_rows, upsertList_delta_rows]
  · intro d hd
    simp only [deltaOfUpdate, ht1, h2] at hd
    obtain rfl := Option.some.inj hd
    exact flags_upsertList_all_found ki _ _ hpresent

/-! ### Cascade propagation -/

theorem update_ok_of_check (t : Table) (recs : List Record)
    (hok : checkRecords t.schema recs = .ok ()) :
    ∃ p, t.update recs = .ok p := by
  unfold Table.update
  rw [hok]
  cases t.indexCol.bind (colIndex t.schema) <;> exact ⟨_, rfl⟩

theorem update_ok_delta (t : Table) (recs : List Record)
    (p : Table × Delta) (h : t.update recs = .ok p) :
    p.2.schema = t.schema ∧
    p.2.rows.map DeltaRow.row = recs.map (normalizeRecord t.schema) := by
  unfold Table.update at h
  cases hok : checkRecords t.schema recs with
  | error e => rw [hok] at h; exact absurd h (by simp)
  | ok u =>
    rw [hok] at h
    cases hb : t.indexCol.bind (colIndex t.schema) with
    | some ki =>
      rw [hb] at h
      obtain rfl := (Except.ok.inj h).symm
      exact ⟨rfl, upsertList_delta_rows ki _ t.rows⟩
    | none =>
      rw [hb] at h
      obtain rfl := (Except.ok.inj h).symm
      simp

theorem getKey_normalizeRecord (schema : Schema) (k : String) (ki : Nat)
    (h : colIndex schema k = some ki) (r : Record) :
    getKey ki (normalizeRecord schema r) = (lookupField r k).getD .vNull := by
  induction schema generalizing ki with
  | nil => simp [colIndex] at h
  | cons c rest ih =>
    by_cases hc : c.1 = k
    · rw [colIndex, if_pos hc] at h
      obtain rfl := Option.some.inj h
      simp [normalizeRecord, getKey, hc]
    · rw [colIndex, if_neg hc, Option.map_eq_some'] at h
      obtain ⟨j, hj, rfl⟩ := h
      simp only [normalizeRecord, List.map_cons, getKey, List.getD_cons_succ]
      exact ih j hj

theorem lookupField_rowToRecord_normalize (schema : Schema) (k : String)
    (ki : Nat) (h : colIndex schema k = some ki) (r : Record) :
    lookupField (rowToRecord schema (normalizeRecord schema r)) k
      = some ((lookupField r k).getD .vNull) := by
  induction schema generalizing ki with
  | nil => simp [colIndex] at h
  | cons c rest ih =>
    by_cases hc : c.1 = k
    · simp [rowToRecord, normalizeRecord, lookupField, List.find?_cons_of_pos,
        hc]
    · rw [colIndex, if_neg hc, Option.map_eq_some'] at h
      obtain ⟨j, hj, rfl⟩ := h
      have := ih j hj
      simpa [rowToRecord, normalizeRecord, lookupField,
        List.find?_cons_of_neg, hc] using this

theorem keysOf_throughTables (asch bsch : Schema) (k : String)
    (ki kia : Nat) (hbci : colIndex bsch k = some ki)
    (haci : colIndex asch k = some kia) (batch : List Record) :
    keysOf ki (batch.map (throughTables asch bsch))
      = batch.map (fun r => (lookupField r k).getD .vNull) := by
  unfold keysOf
  rw [List.map_map]
  refine List.map_congr_left ?_
  intro r _
  show getKey ki (throughTables asch bsch r) = _
  rw [throughTables, getKey_normalizeRecord bsch k ki hbci,
    lookupField_rowToRecord_normalize asch k kia haci]
  rfl

/-- C1: cascade correctness.  Table `a` receives a well-typed batch; its
view's `on_update` callback forwards the delta into the empty keyed table
`b` (the forwarded records being well-typed for `b`).  When `a.update`
returns, `b` holds exactly one row per distinct key occurring in the batch
— its key column values are precisely the batch's key fields, with no
duplicates — and the row stored under each key is the batch's latest
record for that key, pushed through both schemas. -/
theorem cascade_correct (a b : Table) (batch : List Record) (kb : String)
    (ki kia : Nat) (hbrows : b.rows = []) (hbidx : b.indexCol = some kb)
    (hbci : colIndex b.schema kb = some ki)
    (haci : colIndex a.schema kb = some kia)
    (hok : checkRecords a.schema batch = .ok ())
    (hfwd : checkRecords b.schema
      (batch.map (fun r => rowToRecord a.schema (normalizeRecord a.schema r)))
      = .ok ()) :
    (keysOf ki ((cascadeUpdate a b batch).2).rows).Nodup ∧
    (∀ v, v ∈ keysOf ki ((cascadeUpdate a b batch).2).rows
      ↔ v ∈ batch.map (fun r => (lookupField r kb).getD .vNull)) ∧
    (∀ v, lookupRow ki ((cascadeUpdate a b batch).2).rows v
      = lastWith ki (batch.map (throughTables a.schema b.schema)) v) := by
  obtain ⟨p, hu⟩ := update_ok_of_check a batch hok
  obtain ⟨hds, hdr⟩ := update_ok_delta a batch p hu
  have hfd : forwardDelta p.2
      = batch.map (fun r => rowToRecord a.schema (normalizeRecord a.schema r)) := by
    unfold forwardDelta
    rw [hds]
    have : (fun dr : DeltaRow => rowToRecord a.schema dr.row)
        = (rowToRecord a.schema) ∘ DeltaRow.row := rfl
    rw [this, ← List.map_map, hdr, List.map_map]
    rfl
  have hki : b.indexCol.bind (colIndex b.schema) = some ki := by
    rw [hbidx]
    simpa using hbci
  have hcas : (cascadeUpdate a b batch).2
      = tableAfterUpdate b (forwardDelta p.2) := by
    simp [cascadeUpdate, hu]
  have hb2 := update_keyed_eq b (forwardDelta p.2) ki hki (hfd ▸ hfwd)
  have hrows2 : ((cascadeUpdate a b batch).2).rows
      = (upsertList ki []
          (batch.map (throughTables a.schema b.schema))).1 := by
    rw [hcas]
    simp only [tableAfterUpdate, hb2]
    rw [hbrows, hfd, List.map_map]
    rfl
  have hnil : keysOf ki ([] : List Row) = [] := rfl
  refine ⟨?_, ?_, ?_⟩
  · rw [hrows2]
    exact nodup_keysOf_upsertList ki _ [] (by rw [hnil]; exact List.nodup_nil)
  · intro v
    rw [hrows2, ← keysOf_throughTables a.schema b.schema kb ki kia hbci haci]
    rw [mem_keysOf_upsertList]
    simp [hnil]
  · intro v
    rw [hrows2, lookupRow_upsertList]
    have : lookupRow ki [] v = none := rfl
    rw [this, orO_none_right]

/-- C1 witness: a two-column quotes-like source table forwards a batch with
a repeated SPY key into an empty symbol-keyed holdings-like table. -/
theorem cascade_correct_witness :
    lookupRow 0 ((cascadeUpdate
        ⟨[("symbol", .tStr), ("price", .tFloat)], none, []⟩
        ⟨holdings_schema, some "symbol", []⟩
        [[("symbol", .vStr "SPY"), ("price", .vFloat 1)],
         [("symbol", .vStr "AAPL"), ("price", .vFloat 2)],
         [("symbol", .vStr "SPY"), ("price", .vFloat 3)]]).2).rows
      (.vStr "SPY")
    = lastWith 0
        ([[("symbol", .vStr "SPY"), ("price", .vFloat 1)],
          [("symbol", .vStr "AAPL"), ("price", .vFloat 2)],
          [("symbol", .vStr "SPY"), ("price", .vFloat 3)]].map
          (throughTables [("symbol", .tStr), ("price", .tFloat)]
            holdings_schema))
        (.vStr "SPY") :=
  (cascade_correct
    ⟨[("symbol", .tStr), ("price", .tFloat)], none, []⟩
    ⟨holdings_schema, some "symbol", []⟩
    [[("symbol", .vStr "SPY"), ("price", .vFloat 1)],
     [("symbol", .vStr "AAPL"), ("price", .vFloat 2)],
     [("symbol", .vStr "SPY"), ("price", .vFloat 3)]]
    "symbol" 0 0 rfl rfl (by decide) (by decide) (by decide)
    (by decide)).2.2 (.vStr "SPY")

/-- C4 witness: a keyed holdings table, a payload with a repeated key; the
hypotheses hold and the double update equals the single update. -/
theorem upsert_idempotent_witness :
    checkRecords holdings_schema
      [[("symbol", .vStr "A"), ("quantity", .vInt 1)],
       [("symbol", .vStr "A"), ("quantity", .vInt 2)],
       [("symbol", .vStr "B"), ("quantity", .vInt 3)]] = .ok () ∧
    tableAfterUpdate
      (tableAfterUpdate ⟨holdings_schema, some "symbol", []⟩
        [[("symbol", .vStr "A"), ("quantity", .vInt 1)],
         [("symbol", .vStr "A"), ("quantity", .vInt 2)],
         [("symbol", .vStr "B"), ("quantity", .vInt 3)]])
      [[("symbol", .vStr "A"), ("quantity", .vInt 1)],
       [("symbol", .vStr "A"), ("quantity", .vInt 2)],
       [("symbol", .vStr "B"), ("quantity", .vInt 3)]]
    = tableAfterUpdate ⟨holdings_schema, some "symbol", []⟩
        [[("symbol", .vStr "A"), ("quantity", .vInt 1)],
         [("symbol", .vStr "A"), ("quantity", .vInt 2)],
         [("symbol", .vStr "B"), ("quantity", .vInt 3)]] :=
  ⟨by decide,
   (upsert_idempotent ⟨holdings_schema, some "symbol", []⟩
     [[("symbol", .vStr "A"), ("quantity", .vInt 1)],
      [("symbol", .vStr "A"), ("quantity", .vInt 2)],
      [("symbol", .vStr "B"), ("quantity", .vInt 3)]] 0
     (by decide) (by decide) (by decide)).1⟩

/-! ### Snapshot codec round-trip -/

theorem decInt_encInt (i : Int) (rest : List Tok) :
    decInt (encInt i ++ rest) = some (i, rest) := by
  by_cases hi : i < 0
  · simp [encInt, decInt, hi, abs_of_neg hi]
  · simp [encInt, decInt, hi, abs_of_nonneg (not_lt.1 hi)]

theorem tagType_typeTag (t : ColType) : tagType (typeTag t) = some t := by
  cases t <;> rfl

theorem decVal_encVal (t : ColType) (v : Value) (rest : List Tok)
    (h : typeMatches v t = true) :
    decVal t (encVal t v ++ rest) = some (v, rest) := by
  cases v with
  | vInt i =>
    cases t <;> simp_all [typeMatches]
    simp [encVal, decVal, decInt_encInt]
  | vFloat q =>
    cases t <;> simp_all [typeMatches]
    simp [encVal, decVal, List.append_assoc, decInt_encInt, q.den_nz,
      Rat.num_div_den]
  | vStr s =>
    cases t <;> simp_all [typeMatches]
    simp [encVal, decVal]
  | vBool b =>
    cases t <;> simp_all [typeMatches]
    cases b <;> simp [encVal, decVal]
  | vTime x =>
    cases t <;> simp_all [typeMatches]
    simp [encVal, decVal, decInt_encInt]
  | vDate x =>
    cases t <;> simp_all [typeMatches]
    simp [encVal, decVal, decInt_encInt]
  | vNull => cases t <;> rfl

theorem decVals_enc (t : ColType) (vs : List Value)
    (h : ∀ v ∈ vs, typeMatches v t = true) (rest : List Tok) :
    decVals t vs.length (vs.flatMap (encVal t) ++ rest) = some (vs, rest) := by
  induction vs with
  | nil => rfl
  | cons v vs ih =>
    rw [List.flatMap_cons, List.append_assoc]
    simp only [List.length_cons, decVals,
      decVal_encVal t v _ (h v (List.mem_cons_self _ _)),
      ih (fun w hw => h w (List.mem_cons_of_mem _ hw)), Option.map_some']

theorem decSchema_enc (schema : Schema) (rest : List Tok) :
    decSchema schema.length
      (schema.flatMap (fun c => [.s c.1, .n (typeTag c.2)]) ++ rest)
      = some (schema, rest) := by
  induction schema with
  | nil => rfl
  | cons c cs ih =>
    rw [List.flatMap_cons]
    simp only [List.length_cons, List.cons_append, List.append_assoc]
    simp [decSchema, tagType_typeTag, ih]

theorem decCols_encCols (rows : List Row) (sch : Schema) :
    ∀ (j : Nat) (rest : List Tok), colsConform rows sch j = true →
      decCols sch (encCols rows sch j ++ rest)
        = some (colsOf rows sch j, rest) := by
  induction sch with
  | nil => intro j rest _; rfl
  | cons c cs ih =>
    intro j rest hc
    simp only [colsConform, Bool.and_eq_true, List.all_eq_true] at hc
    have hv := decVals_enc c.2 (rows.map (fun r => r.getD j .vNull))
      (fun v hv => by
        obtain ⟨r, hr, rfl⟩ := List.mem_map.1 hv
        exact hc.1 r hr)
      (encCols rows cs (j + 1) ++ rest)
    rw [encCols]
    simp only [encCol, List.cons_append, List.append_assoc]
    simp only [decCols]
    simp only [hv, ih (j + 1) rest hc.2, Option.map_some']
    rfl

theorem colsOf_all_length (rows : List Row) (sch : Schema) :
    ∀ j, (colsOf rows sch j).all
      (fun c => c.length = rows.length) = true := by
  induction sch with
  | nil => intro j; rfl
  | cons c cs ih =>
    intro j
    simp [colsOf, ih (j + 1)]

theorem colsOf_map_getD (rows : List Row) (sch : Schema) (i : Nat)
    (hi : i < rows.length) :
    ∀ j, (colsOf rows sch j).map (fun c => c.getD i .vNull)
      = takeFrom (rows.getD i []) sch j := by
  induction sch with
  | nil => intro j; rfl
  | cons c cs ih =>
    intro j
    simp only [colsOf, List.map_cons, takeFrom]
    congr 1
    · rw [List.getD_eq_getElem?_getD, List.getElem?_map,
        List.getElem?_eq_getElem hi]
      simp [List.getD_eq_getElem?_getD, List.getElem?_eq_getElem hi]
    · exact ih (j + 1)

theorem takeFrom_eq_drop (r : Row) (sch : Schema) :
    ∀ j, r.length = j + sch.length → takeFrom r sch j = r.drop j := by
  induction sch with
  | nil =>
    intro j h
    simp only [List.length_nil, Nat.add_zero] at h
    rw [takeFrom, List.drop_eq_nil_of_le (by omega)]
  | cons c cs ih =>
    intro j h
    simp only [List.length_cons] at h
    have hj : j < r.length := by omega
    rw [takeFrom, List.drop_eq_getElem_cons hj]
    congr 1
    · rw [List.getD_eq_getElem?_getD, List.getElem?_eq_getElem hj]
      rfl
    · exact ih (j + 1) (by omega)

theorem map_range_getD {α : Type} (l : List α) (d : α) :
    (List.range l.length).map (fun i => l.getD i d) = l := by
  induction l with
  | nil => rfl
  | cons a l ih =>
    rw [List.length_cons, List.range_succ_eq_map, List.map_cons, List.map_map]
    have hco : ((fun i => (a :: l).getD i d) ∘ Nat.succ)
        = fun i => l.getD i d := by
      funext i
      simp
    rw [hco, ih]
    simp

theorem rebuild_rows (rows : List Row) (sch : Schema)
    (hlen : ∀ r ∈ rows, r.length = sch.length) :
    (List.range rows.length).map
      (fun i => (colsOf rows sch 0).map (fun c => c.getD i .vNull))
      = rows := by
  have hcongr : ∀ i ∈ List.range rows.length,
      (colsOf rows sch 0).map (fun c => c.getD i .vNull)
        = rows.getD i [] := by
    intro i hi
    rw [List.mem_range] at hi
    rw [colsOf_map_getD rows sch i hi 0, takeFrom_eq_drop, List.drop_zero]
    rw [List.getD_eq_getElem?_getD, List.getElem?_eq_getElem hi]
    have : rows[i] ∈ rows := List.getElem_mem hi
    simpa using hlen _ this
  rw [List.map_congr_left hcongr, map_range_getD]

theorem colsConform_of_drop (rows : List Row) (sch : Schema) :
    ∀ j, (∀ r ∈ rows, (r.drop j).length = sch.length ∧
        ((r.drop j).zip sch).all (fun p => typeMatches p.1 p.2.2) = true) →
      colsConform rows sch j = true := by
  induction sch with
  | nil => intro j _; rfl
  | cons c cs ih =>
    intro j h
    rw [colsConform, Bool.and_eq_true]
    constructor
    · rw [List.all_eq_true]
      intro r hr
      obtain ⟨hl, hz⟩ := h r hr
      have hj : j < r.length := by
        rw [List.length_drop] at hl
        simp at hl
        omega
      rw [List.drop_eq_getElem_cons hj, List.zip_cons_cons, List.all_cons,
        Bool.and_eq_true] at hz
      rw [List.getD_eq_getElem?_getD, List.getElem?_eq_getElem hj]
      exact hz.1
    · refine ih (j + 1) ?_
      intro r hr
      obtain ⟨hl, hz⟩ := h r hr
      have hj : j < r.length := by
        rw [List.length_drop] at hl
        simp at hl
        omega
      rw [List.drop_eq_getElem_cons hj] at hl hz
      rw [List.zip_cons_cons, List.all_cons, Bool.and_eq_true] at hz
      refine ⟨?_, hz.2⟩
      simp at hl ⊢
      omega

/-- C3: snapshot round-trip — for a table whose rows conform to its schema
(the §3 invariant), decoding the encoding of the current rows restores
exactly the schema and the rows, in order. -/
theorem snapshot_roundtrip (t : Table)
    (h : rowsConform t.schema t.rows = true) :
    decode t.toSnapshot = .ok (t.schema, t.rows) := by
  simp only [rowsConform, List.all_eq_true, Bool.and_eq_true,
    decide_eq_true_eq] at h
  have hcols : colsConform t.rows t.schema 0 = true := by
    refine colsConform_of_drop t.rows t.schema 0 ?_
    intro r hr
    rw [List.drop_zero]
    exact ⟨(h r hr).1, List.all_eq_true.mpr (h r hr).2⟩
  have hdc := decCols_encCols t.rows t.schema 0 [Tok.n t.rows.length] hcols
  have hds := decSchema_enc t.schema
    (encCols t.rows t.schema 0 ++ [Tok.n t.rows.length])
  have hall := colsOf_all_length t.rows t.schema 0
  unfold Table.toSnapshot encode
  rw [List.append_assoc]
  simp only [decode, hds, hdc, hall, if_true]
  rw [rebuild_rows t.rows t.schema (fun r hr => (h r hr).1)]

/-- C3 witness: a concrete holdings snapshot decodes back to its schema and
rows. -/
theorem snapshot_roundtrip_witness :
    decode (Table.toSnapshot ⟨holdings_schema, some "symbol",
        [[.vStr "SPY", .vInt 7, .vNull], [.vStr "ZM", .vInt 5, .vNull]]⟩)
      = .ok (holdings_schema,
        [[.vStr "SPY", .vInt 7, .vNull], [.vStr "ZM", .vInt 5, .vNull]]) :=
  snapshot_roundtrip
    ⟨holdings_schema, some "symbol",
      [[.vStr "SPY", .vInt 7, .vNull], [.vStr "ZM", .vInt 5, .vNull]]⟩
    (by decide)

end Engine
